import Mathlib

/-!
Verification of the `awslambda` deployment tool against its specification.

The development shallowly embeds the parts of `src/awslambda/deploy.py`
(and, where a claim needs it, the earlier variant `src/lambda_deploy.py`)
that the claims are about: the `Lambdas` remote-function directory, the
sync/reconciliation loop of `deploy`, the sequential executor loops, the
`zip_tree` archive builder, the `temp_s3file` staging context manager,
and the argument-dispatch of the legacy `--create` path.

Python dictionaries become association lists with first-match lookup,
Python exceptions become `Option`/`Except` values, and the side-effecting
AWS client calls become entries of an explicit call trace.
-/

namespace AwsLambda

/-- `Lambdas.Props = namedtuple('Props', 'handler role')` from
`src/awslambda/deploy.py`. -/
structure Props where
  handler : String
  role : String
deriving DecidableEq, Repr

/-- A desired function as read from one entry of a `--sync` YAML manifest:
`handler = value['handler']`, `role = value['role']` keyed by `name`. -/
structure FunctionSpec where
  name : String
  handler : String
  role : String
deriving DecidableEq, Repr

/-- The `Lambdas.functions` dictionary: the remote-function directory,
built once per run from `client.list_functions()`.  Modelled as an
association list from function name to `Props`. -/
def Lambdas : Type := List (String × Props)

/-- `name in lambdas` (`Lambdas.__contains__`). -/
def Lambdas.mem (L : Lambdas) (name : String) : Bool :=
  (List.any L (fun kv => kv.1 = name))

/-- `lambdas[name]` (`Lambdas.__getitem__`): dictionary lookup.  A `none`
result corresponds to the `KeyError` the Python dict raises. -/
def Lambdas.getItem (L : Lambdas) (name : String) : Option Props :=
  (List.find? (fun kv => kv.1 = name) L).map (fun kv => kv.2)

/-- `Lambdas.is_equivalent(name, handler, role)`:
`self.Props(handler, role) == self[name]`.  The `none` case is the
`KeyError` raised when `name` is not a key. -/
def Lambdas.is_equivalent (L : Lambdas) (name handler role : String) :
    Option Bool :=
  (L.getItem name).map (fun p => decide (Props.mk handler role = p))

/-- The three accumulating lists `delete`, `create`, `update` of `deploy`
in `src/awslambda/deploy.py` (after `delete, create, update =
map(list, (delete, create, update))`). -/
structure SyncAcc where
  del : List String
  cre : List (String × String × String)
  upd : List String
deriving DecidableEq, Repr

/-- One iteration of the sync loop of `deploy`:

    if name in lambdas:
        if lambdas.is_equivalent(name, handler, role):
            update.append(name)
        else:
            delete.append(name)
            create.append((name, handler, role))
    else:
        create.append((name, handler, role))
-/
def syncStep (L : Lambdas) (acc : SyncAcc) (e : FunctionSpec) : SyncAcc :=
  if L.mem e.name then
    if L.is_equivalent e.name e.handler e.role = some true then
      { acc with upd := acc.upd ++ [e.name] }
    else
      { acc with del := acc.del ++ [e.name],
                 cre := acc.cre ++ [(e.name, e.handler, e.role)] }
  else
    { acc with cre := acc.cre ++ [(e.name, e.handler, e.role)] }

/-- The whole sync loop (`for name, value in cfg.iteritems(): ...`),
threading the accumulated `delete`/`create`/`update` lists through the
desired entries.  The same classification is `do_sync` in
`src/lambda_deploy.py`. -/
def do_sync (L : Lambdas) (acc : SyncAcc) (desired : List FunctionSpec) :
    SyncAcc :=
  desired.foldl (syncStep L) acc

/-- Per-entry contribution to the `delete` list: a pure function of the
snapshot and the entry. -/
def delOf (L : Lambdas) (e : FunctionSpec) : List String :=
  if L.mem e.name then
    if L.is_equivalent e.name e.handler e.role = some true then []
    else [e.name]
  else []

/-- Per-entry contribution to the `create` list. -/
def creOf (L : Lambdas) (e : FunctionSpec) : List (String × String × String) :=
  if L.mem e.name then
    if L.is_equivalent e.name e.handler e.role = some true then []
    else [(e.name, e.handler, e.role)]
  else [(e.name, e.handler, e.role)]

/-- Per-entry contribution to the `update` list. -/
def updOf (L : Lambdas) (e : FunctionSpec) : List String :=
  if L.mem e.name then
    if L.is_equivalent e.name e.handler e.role = some true then [e.name]
    else []
  else []

theorem syncStep_eq (L : Lambdas) (acc : SyncAcc) (e : FunctionSpec) :
    syncStep L acc e =
      ⟨acc.del ++ delOf L e, acc.cre ++ creOf L e, acc.upd ++ updOf L e⟩ := by
  unfold syncStep delOf creOf updOf
  by_cases h : L.mem e.name = true
  · by_cases h2 : L.is_equivalent e.name e.handler e.role = some true
    · simp [h, h2]
    · simp [h, h2]
  · simp [h]

/-- The sync loop decomposes entrywise: every desired entry contributes to
the three lists a pure function of that entry and the snapshot alone,
appended in desired-list order after the initial (command-line) lists. -/
theorem do_sync_eq (L : Lambdas) (acc : SyncAcc) (desired : List FunctionSpec) :
    do_sync L acc desired =
      ⟨acc.del ++ desired.flatMap (delOf L),
       acc.cre ++ desired.flatMap (creOf L),
       acc.upd ++ desired.flatMap (updOf L)⟩ := by
  induction desired generalizing acc with
  | nil => simp [do_sync]
  | cons e rest ih =>
      have : do_sync L acc (e :: rest) = do_sync L (syncStep L acc e) rest := rfl
      rw [this, ih, syncStep_eq]
      simp

/-- A pure sync run: the reconciliation loop started from empty
`delete`/`create`/`update` lists (no explicit command-line actions). -/
def reconcile (L : Lambdas) (desired : List FunctionSpec) : SyncAcc :=
  do_sync L ⟨[], [], []⟩ desired

theorem Lambdas.mem_of_getItem (L : Lambdas) (name : String) (p : Props)
    (h : L.getItem name = some p) : L.mem name = true := by
  unfold Lambdas.getItem at h
  unfold Lambdas.mem
  rcases Option.map_eq_some'.mp h with ⟨kv, hfind, _⟩
  have hmem := List.mem_of_find?_eq_some hfind
  have hp := List.find?_some hfind
  exact List.any_eq_true.mpr ⟨kv, hmem, hp⟩

theorem Lambdas.not_mem_getItem (L : Lambdas) (name : String)
    (h : L.mem name = false) : L.getItem name = none := by
  cases hg : L.getItem name with
  | none => rfl
  | some p => rw [Lambdas.mem_of_getItem L name p hg] at h; cases h

/-- If all (g x).filter for other entries vanish and `e` occurs once, the
flatMap-then-filter collapses to `e`'s own contribution. -/
theorem flatMap_eq_of_unique {α β : Type} (ds : List α) (e : α) (g : α → List β)
    (hds : ds.Nodup) (he : e ∈ ds)
    (hothers : ∀ x ∈ ds, x ≠ e → g x = []) :
    ds.flatMap g = g e := by
  induction ds with
  | nil => cases he
  | cons a rest ih =>
      rw [List.flatMap_cons]
      rcases List.mem_cons.mp he with rfl | hmem
      · have hrest : rest.flatMap g = [] := by
          rw [List.flatMap_eq_nil_iff]
          intro x hx
          exact hothers x (List.mem_cons_of_mem _ hx)
            (fun hxe => (List.nodup_cons.mp hds).1 (hxe ▸ hx))
        rw [hrest, List.append_nil]
      · have ha : g a = [] := by
          apply hothers a (List.mem_cons_self a rest)
          intro hae
          exact (List.nodup_cons.mp hds).1 (hae ▸ hmem)
        rw [ha, List.nil_append]
        exact ih (List.nodup_cons.mp hds).2 hmem
          (fun x hx => hothers x (List.mem_cons_of_mem _ hx))

/-- Distinct names in `desired` make specs injective over membership. -/
theorem name_inj {desired : List FunctionSpec}
    (hnd : (desired.map FunctionSpec.name).Nodup)
    {x e : FunctionSpec} (hx : x ∈ desired) (he : e ∈ desired)
    (hne : x ≠ e) : x.name ≠ e.name := by
  intro hn
  exact hne (List.inj_on_of_nodup_map hnd hx he hn)

/-- C1: a desired spec absent from the snapshot yields exactly one Create
(and no delete and no update for its name); a desired spec present with
identical handler and role yields exactly one Update and no delete for
its name. -/
theorem reconcile_create_update (L : Lambdas) (desired : List FunctionSpec)
    (hnd : (desired.map FunctionSpec.name).Nodup)
    (e : FunctionSpec) (he : e ∈ desired) :
    (L.mem e.name = false →
      (reconcile L desired).cre.filter (fun c => c.1 = e.name) =
          [(e.name, e.handler, e.role)]
      ∧ (reconcile L desired).del.filter (fun n => n = e.name) = []
      ∧ (reconcile L desired).upd.filter (fun n => n = e.name) = [])
    ∧ (L.getItem e.name = some ⟨e.handler, e.role⟩ →
      (reconcile L desired).upd.filter (fun n => n = e.name) = [e.name]
      ∧ (reconcile L desired).del.filter (fun n => n = e.name) = []) := by
  have hds : desired.Nodup := List.Nodup.of_map _ hnd
  have hcre : (reconcile L desired).cre.filter (fun c => c.1 = e.name) =
      (creOf L e).filter (fun c => c.1 = e.name) := by
    rw [reconcile, do_sync_eq]
    simp only [List.nil_append, List.filter_flatMap]
    apply flatMap_eq_of_unique _ _ _ hds he
    intro x hx hne
    have hn := name_inj hnd hx he hne
    unfold creOf
    split <;> [skip; simp [hn]]
    split <;> simp [hn]
  have hdel : (reconcile L desired).del.filter (fun n => n = e.name) =
      (delOf L e).filter (fun n => n = e.name) := by
    rw [reconcile, do_sync_eq]
    simp only [List.nil_append, List.filter_flatMap]
    apply flatMap_eq_of_unique _ _ _ hds he
    intro x hx hne
    have hn := name_inj hnd hx he hne
    unfold delOf
    split <;> [skip; simp]
    split <;> simp [hn]
  have hupd : (reconcile L desired).upd.filter (fun n => n = e.name) =
      (updOf L e).filter (fun n => n = e.name) := by
    rw [reconcile, do_sync_eq]
    simp only [List.nil_append, List.filter_flatMap]
    apply flatMap_eq_of_unique _ _ _ hds he
    intro x hx hne
    have hn := name_inj hnd hx he hne
    unfold updOf
    split <;> [skip; simp]
    split <;> simp [hn]
  constructor
  · intro habs
    refine ⟨?_, ?_, ?_⟩
    · rw [hcre]; unfold creOf; simp [habs]
    · rw [hdel]; unfold delOf; simp [habs]
    · rw [hupd]; unfold updOf; simp [habs]
  · intro hsome
    have hmem : L.mem e.name = true := Lambdas.mem_of_getItem L e.name _ hsome
    have hequiv : L.is_equivalent e.name e.handler e.role = some true := by
      unfold Lambdas.is_equivalent
      rw [hsome]
      simp
    refine ⟨?_, ?_⟩
    · rw [hupd]; unfold updOf; simp [hmem, hequiv]
    · rw [hdel]; unfold delOf; simp [hmem, hequiv]

/-- Witness for C1 at a concrete snapshot and desired list. -/
theorem reconcile_create_update_witness :
    (reconcile [("g", ⟨"h0", "r0"⟩)]
        [⟨"f", "h", "r"⟩, ⟨"g", "h0", "r0"⟩]).cre.filter
        (fun c => c.1 = "f") = [("f", "h", "r")] :=
  ((reconcile_create_update [("g", ⟨"h0", "r0"⟩)]
      [⟨"f", "h", "r"⟩, ⟨"g", "h0", "r0"⟩] (by decide)
      ⟨"f", "h", "r"⟩ (by simp)).1 (by decide)).1

/-- The three mutating calls the executor issues against the lambda
client (`delete_function`, `create_function`, `update_function_code`). -/
inductive ApiCall where
  | deleteFunction (name : String)
  | createFunction (name handler role : String)
  | updateFunctionCode (name : String)
deriving DecidableEq, Repr

/-- The executor of `deploy`: three sequential loops, deletes first, then
creates, then updates, each emitting one API call per list entry. -/
def execTrace (acc : SyncAcc) : List ApiCall :=
  acc.del.map ApiCall.deleteFunction
    ++ acc.cre.map (fun c => ApiCall.createFunction c.1 c.2.1 c.2.2)
    ++ acc.upd.map ApiCall.updateFunctionCode

theorem execTrace_delete_lt (acc : SyncAcc) (i : Nat) (d : String)
    (h : (execTrace acc)[i]? = some (ApiCall.deleteFunction d)) :
    i < acc.del.length := by
  by_contra hge
  push_neg at hge
  have hge' : (acc.del.map ApiCall.deleteFunction).length ≤ i := by simpa using hge
  rw [execTrace, List.append_assoc, List.getElem?_append_right hge'] at h
  have hmem := List.getElem?_mem h
  simp [List.mem_append, List.mem_map] at hmem

theorem execTrace_create_ge (acc : SyncAcc) (i : Nat) (n h r : String)
    (hc : (execTrace acc)[i]? = some (ApiCall.createFunction n h r)) :
    acc.del.length ≤ i := by
  by_contra hlt
  push_neg at hlt
  have hlt' : i < (acc.del.map ApiCall.deleteFunction).length := by simpa using hlt
  rw [execTrace, List.append_assoc, List.getElem?_append] at hc
  rw [if_pos hlt'] at hc
  have hmem := List.getElem?_mem hc
  simp [List.mem_map] at hmem

theorem execTrace_create_lt (acc : SyncAcc) (i : Nat) (n h r : String)
    (hc : (execTrace acc)[i]? = some (ApiCall.createFunction n h r)) :
    i < acc.del.length + acc.cre.length := by
  by_contra hge
  push_neg at hge
  have hge' : (acc.del.map ApiCall.deleteFunction
      ++ acc.cre.map (fun c => ApiCall.createFunction c.1 c.2.1 c.2.2)).length ≤ i := by
    simpa using hge
  rw [execTrace, List.getElem?_append_right hge'] at hc
  have hmem := List.getElem?_mem hc
  simp [List.mem_map] at hmem

theorem execTrace_update_ge (acc : SyncAcc) (k : Nat) (u : String)
    (hu : (execTrace acc)[k]? = some (ApiCall.updateFunctionCode u)) :
    acc.del.length + acc.cre.length ≤ k := by
  by_contra hlt
  push_neg at hlt
  have hlt' : k < (acc.del.map ApiCall.deleteFunction
      ++ acc.cre.map (fun c => ApiCall.createFunction c.1 c.2.1 c.2.2)).length := by
    simpa using hlt
  rw [execTrace, List.getElem?_append] at hu
  rw [if_pos hlt'] at hu
  have hmem := List.getElem?_mem hu
  simp [List.mem_append, List.mem_map] at hmem

theorem execTrace_del_at (acc : SyncAcc) (i : Nat) (hi : i < acc.del.length) :
    (execTrace acc)[i]? = some (ApiCall.deleteFunction acc.del[i]) := by
  have hi' : i < (acc.del.map ApiCall.deleteFunction).length := by simpa using hi
  rw [execTrace, List.append_assoc, List.getElem?_append, if_pos hi']
  simp [List.getElem?_map, List.getElem?_eq_getElem hi]

theorem execTrace_cre_at (acc : SyncAcc) (j : Nat) (hj : j < acc.cre.length) :
    (execTrace acc)[acc.del.length + j]? =
      some (ApiCall.createFunction acc.cre[j].1 acc.cre[j].2.1 acc.cre[j].2.2) := by
  have hge : (acc.del.map ApiCall.deleteFunction).length ≤ acc.del.length + j := by
    simp
  rw [execTrace, List.append_assoc, List.getElem?_append_right hge]
  have hj' : acc.del.length + j - (acc.del.map ApiCall.deleteFunction).length = j := by
    simp
  rw [hj']
  have hj'' : j < (acc.cre.map (fun c => ApiCall.createFunction c.1 c.2.1 c.2.2)).length := by
    simpa using hj
  rw [List.getElem?_append, if_pos hj'']
  simp [List.getElem?_map, List.getElem?_eq_getElem hj]

/-- C3: in the executed call sequence, every delete (explicit or the
delete half of a recreate) precedes every create, and every create
precedes every update; no create ever precedes a pending delete. -/
theorem executor_order (acc : SyncAcc) :
    (∀ (i j : Nat) (n h r d : String),
        (execTrace acc)[i]? = some (ApiCall.createFunction n h r) →
        (execTrace acc)[j]? = some (ApiCall.deleteFunction d) → j < i)
    ∧ (∀ (i k : Nat) (n h r u : String),
        (execTrace acc)[i]? = some (ApiCall.createFunction n h r) →
        (execTrace acc)[k]? = some (ApiCall.updateFunctionCode u) → i < k)
    ∧ (∀ (j k : Nat) (d u : String),
        (execTrace acc)[j]? = some (ApiCall.deleteFunction d) →
        (execTrace acc)[k]? = some (ApiCall.updateFunctionCode u) → j < k) := by
  refine ⟨?_, ?_, ?_⟩
  · intro i j n h r d hc hd
    exact Nat.lt_of_lt_of_le (execTrace_delete_lt acc j d hd)
      (execTrace_create_ge acc i n h r hc)
  · intro i k n h r u hc hu
    exact Nat.lt_of_lt_of_le (execTrace_create_lt acc i n h r hc)
      (execTrace_update_ge acc k u hu)
  · intro j k d u hd hu
    exact Nat.lt_of_lt_of_le (execTrace_delete_lt acc j d hd)
      (Nat.le_trans (Nat.le_add_right _ _) (execTrace_update_ge acc k u hu))

/-- Witness for C3 on a concrete action set with one delete, one create
and one update. -/
theorem executor_order_witness : 0 < 1 ∧ 1 < 2 ∧ 0 < 2 := by
  have h := executor_order ⟨["a"], [("b", "hh", "rr")], ["c"]⟩
  exact ⟨h.1 1 0 "b" "hh" "rr" "a" rfl rfl,
         h.2.1 1 2 "b" "hh" "rr" "c" rfl rfl,
         h.2.2 0 2 "a" "c" rfl rfl⟩

/-- C2: a desired spec whose name is present in the snapshot with a
differing handler or role yields exactly one delete of that name and
exactly one create with the desired handler and role (the Recreate), no
plain Update for that name, and in the executed trace the delete of the
name precedes the create. -/
theorem reconcile_recreate (L : Lambdas) (desired : List FunctionSpec)
    (hnd : (desired.map FunctionSpec.name).Nodup)
    (e : FunctionSpec) (he : e ∈ desired)
    (p : Props) (hp : L.getItem e.name = some p)
    (hdiff : p.handler ≠ e.handler ∨ p.role ≠ e.role) :
    (reconcile L desired).del.filter (fun n => n = e.name) = [e.name]
    ∧ (reconcile L desired).cre.filter (fun c => c.1 = e.name) =
        [(e.name, e.handler, e.role)]
    ∧ (reconcile L desired).upd.filter (fun n => n = e.name) = []
    ∧ ∃ i j : Nat, i < j
        ∧ (execTrace (reconcile L desired))[i]? =
            some (ApiCall.deleteFunction e.name)
        ∧ (execTrace (reconcile L desired))[j]? =
            some (ApiCall.createFunction e.name e.handler e.role) := by
  have hds : desired.Nodup := List.Nodup.of_map _ hnd
  have hmem : L.mem e.name = true := Lambdas.mem_of_getItem L e.name p hp
  have hne : L.is_equivalent e.name e.handler e.role ≠ some true := by
    unfold Lambdas.is_equivalent
    rw [hp]
    simp only [Option.map_some']
    intro hmk
    have hmk' : Props.mk e.handler e.role = p :=
      of_decide_eq_true (Option.some.inj hmk)
    rcases hdiff with hd | hd
    · exact hd (by rw [← hmk'])
    · exact hd (by rw [← hmk'])
  have hdel : (reconcile L desired).del.filter (fun n => n = e.name) = [e.name] := by
    rw [reconcile, do_sync_eq]
    simp only [List.nil_append, List.filter_flatMap]
    rw [flatMap_eq_of_unique _ e _ hds he]
    · unfold delOf; simp [hmem, hne]
    · intro x hx hxe
      have hn := name_inj hnd hx he hxe
      unfold delOf
      split <;> [skip; simp]
      split <;> simp [hn]
  have hcre : (reconcile L desired).cre.filter (fun c => c.1 = e.name) =
      [(e.name, e.handler, e.role)] := by
    rw [reconcile, do_sync_eq]
    simp only [List.nil_append, List.filter_flatMap]
    rw [flatMap_eq_of_unique _ e _ hds he]
    · unfold creOf; simp [hmem, hne]
    · intro x hx hxe
      have hn := name_inj hnd hx he hxe
      unfold creOf
      split <;> [skip; simp [hn]]
      split <;> simp [hn]
  have hupd : (reconcile L desired).upd.filter (fun n => n = e.name) = [] := by
    rw [reconcile, do_sync_eq]
    simp only [List.nil_append, List.filter_flatMap]
    rw [flatMap_eq_of_unique _ e _ hds he]
    · unfold updOf; simp [hmem, hne]
    · intro x hx hxe
      have hn := name_inj hnd hx he hxe
      unfold updOf
      split <;> [skip; simp]
      split <;> simp [hn]
  refine ⟨hdel, hcre, hupd, ?_⟩
  have hdmem : e.name ∈ (reconcile L desired).del := by
    have : e.name ∈ (reconcile L desired).del.filter (fun n => n = e.name) := by
      rw [hdel]; exact List.mem_singleton.mpr rfl
    exact List.mem_of_mem_filter this
  have hcmem : (e.name, e.handler, e.role) ∈ (reconcile L desired).cre := by
    have : (e.name, e.handler, e.role) ∈
        (reconcile L desired).cre.filter (fun c => c.1 = e.name) := by
      rw [hcre]; exact List.mem_singleton.mpr rfl
    exact List.mem_of_mem_filter this
  rcases List.getElem_of_mem hdmem with ⟨i, hi, hdi⟩
  rcases List.getElem_of_mem hcmem with ⟨j, hj, hcj⟩
  refine ⟨i, (reconcile L desired).del.length + j, ?_, ?_, ?_⟩
  · exact Nat.lt_of_lt_of_le hi (Nat.le_add_right _ _)
  · rw [execTrace_del_at _ i hi, hdi]
  · rw [execTrace_cre_at _ j hj, hcj]

/-- Witness for C2: the snapshot has `f` with handler `h`, the manifest
wants handler `h2`; a Recreate results. -/
theorem reconcile_recreate_witness :
    (reconcile [("f", ⟨"h", "r"⟩)] [⟨"f", "h2", "r"⟩]).del.filter
        (fun n => n = "f") = ["f"] :=
  (reconcile_recreate [("f", ⟨"h", "r"⟩)] [⟨"f", "h2", "r"⟩] (by decide)
      ⟨"f", "h2", "r"⟩ (by simp) ⟨"h", "r"⟩ (by decide)
      (Or.inl (by decide))).1

/-- C6: when the remote state already matches `desired` (every desired
name is recorded with the desired handler and role), a reconciliation run
emits no delete and no create — only an Update per desired entry. -/
theorem reconcile_idempotent (L : Lambdas) (desired : List FunctionSpec)
    (hmatch : ∀ e ∈ desired, L.getItem e.name = some ⟨e.handler, e.role⟩) :
    reconcile L desired = ⟨[], [], desired.map FunctionSpec.name⟩ := by
  have hmm : ∀ e ∈ desired, L.mem e.name = true := fun e he =>
    Lambdas.mem_of_getItem L e.name _ (hmatch e he)
  have heq : ∀ e ∈ desired, L.is_equivalent e.name e.handler e.role = some true := by
    intro e he
    unfold Lambdas.is_equivalent
    rw [hmatch e he]
    simp
  rw [reconcile, do_sync_eq]
  have hdel : desired.flatMap (delOf L) = [] := by
    rw [List.flatMap_eq_nil_iff]
    intro e he
    unfold delOf
    simp [hmm e he, heq e he]
  have hcre : desired.flatMap (creOf L) = [] := by
    rw [List.flatMap_eq_nil_iff]
    intro e he
    unfold creOf
    simp [hmm e he, heq e he]
  have hupd : ∀ ds : List FunctionSpec,
      (∀ e ∈ ds, e ∈ desired) →
      ds.flatMap (updOf L) = ds.map FunctionSpec.name := by
    intro ds
    induction ds with
    | nil => intro _; rfl
    | cons e rest ih =>
        intro hsub
        have he := hsub e (List.mem_cons_self e rest)
        rw [List.flatMap_cons, List.map_cons,
            ih (fun x hx => hsub x (List.mem_cons_of_mem _ hx))]
        unfold updOf
        simp [hmm e he, heq e he]
  rw [hdel, hcre, hupd desired (fun _ hx => hx)]
  simp

/-- Witness for C6: remote state already matches the one desired spec, so
the second run is update-only. -/
theorem reconcile_idempotent_witness :
    reconcile [("f", ⟨"h", "r"⟩)] [⟨"f", "h", "r"⟩] = ⟨[], [], ["f"]⟩ :=
  reconcile_idempotent [("f", ⟨"h", "r"⟩)] [⟨"f", "h", "r"⟩] (by decide)

/-- C7: for a name present in the snapshot, `is_equivalent` holds exactly
when both the recorded handler and the recorded role are equal, as raw
strings, to the queried ones. -/
theorem is_equivalent_exact (L : Lambdas) (name handler role : String)
    (p : Props) (hp : L.getItem name = some p) :
    (L.is_equivalent name handler role = some true) ↔
      (p.handler = handler ∧ p.role = role) := by
  obtain ⟨ph, pr⟩ := p
  unfold Lambdas.is_equivalent
  rw [hp]
  simp only [Option.map_some', Option.some.injEq, decide_eq_true_eq,
    Props.mk.injEq]
  constructor
  · rintro ⟨h1, h2⟩; exact ⟨h1.symm, h2.symm⟩
  · rintro ⟨h1, h2⟩; exact ⟨h1.symm, h2.symm⟩

/-- Witness for C7 at a concrete one-entry snapshot. -/
theorem is_equivalent_exact_witness :
    Lambdas.is_equivalent [("f", ⟨"h", "r"⟩)] "f" "h" "r" = some true :=
  (is_equivalent_exact [("f", ⟨"h", "r"⟩)] "f" "h" "r" ⟨"h", "r"⟩
    (by decide)).mpr ⟨rfl, rfl⟩

/-- C8: the snapshot is consulted, never mutated: the outcome of the sync
loop is the initial lists followed by per-entry contributions, where each
entry's classification (`delOf`/`creOf`/`updOf`) is a pure function of
that entry and the one point-in-time snapshot `L`, independent of the
accumulated lists and of any other entry. -/
theorem snapshot_classification_pure (L : Lambdas) (acc : SyncAcc)
    (desired : List FunctionSpec) :
    do_sync L acc desired =
      ⟨acc.del ++ desired.flatMap (delOf L),
       acc.cre ++ desired.flatMap (creOf L),
       acc.upd ++ desired.flatMap (updOf L)⟩ :=
  do_sync_eq L acc desired

/-- Index of the last `'.'` in a character list, if any. -/
def lastDot : List Char → Option Nat
  | [] => none
  | c :: rest =>
    match lastDot rest with
    | some i => some (i + 1)
    | none => if c = '.' then some 0 else none

/-- The extension returned by `os.path.splitext` for a bare file name (no
path separators): the suffix starting at the last dot, unless every
character before that dot is itself a dot (leading dots do not start an
extension, so `splitext('.pyc')` has extension `''`). -/
def splitextExt (f : String) : String :=
  match lastDot f.toList with
  | none => ""
  | some i =>
    if (f.toList.take i).any (fun c => c ≠ '.') then
      String.mk (f.toList.drop i)
    else ""

/-- Python's `s.startswith('.')`: the first character is a dot. -/
def startsWithDot (f : String) : Bool :=
  match f.toList with
  | [] => false
  | c :: _ => c = '.'

/-- The file filter of `zip_tree` in `src/awslambda/deploy.py`:
`ext not in IGNORE_EXTENSIONS and not f.startswith('.')` with
`IGNORE_EXTENSIONS = ('.pyc',)`. -/
def keepFile (f : String) : Bool :=
  !(splitextExt f == ".pyc") && !(startsWithDot f)

/-- A directory tree: the directory's own name, the regular files directly
inside it, and its subdirectories. -/
inductive Tree where
  | node (name : String) (files : List String) (dirs : List Tree)

def Tree.name : Tree → String
  | .node n _ _ => n

/-- `zip_tree` of `src/awslambda/deploy.py` as the list of archive members
it writes, each as (directory path relative to the root, file name).  The
walk is top-down; a directory whose basename starts with `'.'` clears
`dirs` and `continue`s, so neither its files nor anything below it is
written; kept files pass `keepFile`. -/
def zipTree : Tree → List (List String × String)
  | .node name files dirs =>
    if startsWithDot name then []
    else
      (files.filter keepFile).map (fun f => (([] : List String), f))
        ++ dirs.attach.flatMap
            (fun d => (zipTree d.1).map (fun pf => (d.1.name :: pf.1, pf.2)))
termination_by t => sizeOf t
decreasing_by
  have := List.sizeOf_lt_of_mem d.2
  simp only [Tree.node.sizeOf_spec]
  omega

/-- All regular files of a tree, as (directory path below the root, file
name) pairs. -/
def allFiles : Tree → List (List String × String)
  | .node _ files dirs =>
    files.map (fun f => (([] : List String), f))
      ++ dirs.attach.flatMap
          (fun d => (allFiles d.1).map (fun pf => (d.1.name :: pf.1, pf.2)))
termination_by t => sizeOf t
decreasing_by
  have := List.sizeOf_lt_of_mem d.2
  simp only [Tree.node.sizeOf_spec]
  omega

theorem Tree.inductionOn (motive : Tree → Prop)
    (h : ∀ name files dirs,
        (∀ d ∈ dirs, motive d) → motive (Tree.node name files dirs)) :
    ∀ t, motive t
  | .node n fs ds => h n fs ds (fun d hd => Tree.inductionOn motive h d)
termination_by t => sizeOf t
decreasing_by
  simp only [Tree.node.sizeOf_spec]
  have := List.sizeOf_lt_of_mem hd
  omega

theorem zipTree_node (name : String) (files : List String) (dirs : List Tree) :
    zipTree (Tree.node name files dirs) =
      if startsWithDot name then []
      else
        (files.filter keepFile).map (fun f => (([] : List String), f))
          ++ dirs.flatMap
              (fun d => (zipTree d).map (fun pf => (d.name :: pf.1, pf.2))) := by
  rw [zipTree]
  congr 1
  conv_rhs => rw [← List.attach_map_subtype_val dirs]
  rw [List.flatMap_map]

theorem allFiles_node (name : String) (files : List String) (dirs : List Tree) :
    allFiles (Tree.node name files dirs) =
      files.map (fun f => (([] : List String), f))
        ++ dirs.flatMap
            (fun d => (allFiles d).map (fun pf => (d.name :: pf.1, pf.2))) := by
  rw [allFiles]
  congr 1
  conv_rhs => rw [← List.attach_map_subtype_val dirs]
  rw [List.flatMap_map]

theorem zipTree_eq_nil_of_dot (t : Tree) (h : startsWithDot t.name = true) :
    zipTree t = [] := by
  cases t with
  | node n fs ds =>
      rw [zipTree_node]
      rw [Tree.name] at h
      simp [h]

/-- C4: for a root whose own name is not dot-prefixed, the archive holds
exactly the regular files of the tree except `.pyc`-extension files,
dot-prefixed files, and everything lying beneath a dot-prefixed
directory. -/
theorem zip_tree_exact (t : Tree) :
    startsWithDot t.name = false →
    ∀ (p : List String) (f : String),
      ((p, f) ∈ zipTree t ↔
        ((p, f) ∈ allFiles t ∧ splitextExt f ≠ ".pyc"
          ∧ startsWithDot f = false
          ∧ ∀ d ∈ p, startsWithDot d = false)) := by
  induction t using Tree.inductionOn with
  | h name files dirs ih =>
      intro hroot p f
      rw [zipTree_node, allFiles_node]
      rw [Tree.name] at hroot
      rw [if_neg (by simp [hroot])]
      simp only [List.mem_append, List.mem_map, List.mem_flatMap,
        List.mem_filter]
      constructor
      · rintro (⟨g, ⟨hg, hkeep⟩, hgf⟩ | ⟨d, hd, pf, hpf, hpff⟩)
        · cases hgf
          rw [keepFile, Bool.and_eq_true] at hkeep
          refine ⟨Or.inl ⟨f, hg, rfl⟩, ?_, ?_, ?_⟩
          · intro hext
            simp [hext] at hkeep
          · rcases hkeep with ⟨_, h2⟩
            simpa using h2
          · intro d hd
            cases hd
        · cases hpff
          by_cases hdn : startsWithDot d.name = true
          · rw [zipTree_eq_nil_of_dot d hdn] at hpf
            cases hpf
          · have hih := (ih d hd (by simpa using hdn) pf.1 pf.2).mp hpf
            refine ⟨Or.inr ⟨d, hd, pf, hih.1, rfl⟩, hih.2.1, hih.2.2.1, ?_⟩
            intro x hx
            rcases List.mem_cons.mp hx with rfl | hx
            · simpa using hdn
            · exact hih.2.2.2 x hx
      · rintro ⟨hall, hext, hdot, hpath⟩
        rcases hall with ⟨g, hg, hgf⟩ | ⟨d, hd, pf, hpf, hpff⟩
        · cases hgf
          refine Or.inl ⟨f, ⟨hg, ?_⟩, rfl⟩
          rw [keepFile, Bool.and_eq_true]
          constructor
          · simpa using hext
          · simpa using hdot
        · cases hpff
          have hdn : startsWithDot d.name = false := by
            have := hpath d.name (List.mem_cons_self _ _)
            simpa using this
          refine Or.inr ⟨d, hd, pf, ?_, rfl⟩
          refine (ih d hd hdn pf.1 pf.2).mpr ⟨hpf, hext, hdot, ?_⟩
          intro x hx
          exact hpath x (List.mem_cons_of_mem _ hx)

/-- Witness for C4 on the spec's test tree: a `.pyc` file, a dotfile, a
hidden subdirectory with contents, and one ordinary file; only the
ordinary file is archived. -/
theorem zip_tree_exact_witness :
    ([], "main.py") ∈
      zipTree (Tree.node "src" ["main.py", "main.pyc", ".hidden"]
        [Tree.node ".git" ["config"] []]) :=
  (zip_tree_exact
      (Tree.node "src" ["main.py", "main.pyc", ".hidden"]
        [Tree.node ".git" ["config"] []])
      (by decide) [] "main.py").mpr
    (by refine ⟨?_, by decide, by decide, by intro d hd; cases hd⟩
        rw [allFiles_node]; simp)

/-- Calls issued against the S3 client. -/
inductive S3Call where
  | uploadFile (bucket key : String)
  | deleteObject (bucket key : String)
deriving DecidableEq, Repr

/-- A step of a run that talks to S3: it extends the call trace and either
returns a value or raises.  Arbitrary functions of this type model the
body of the `temp_s3file` context (the whole deployment, succeeding or
failing at any point). -/
def S3M (α : Type) : Type := List S3Call → List S3Call × Except String α

/-- Emit one S3 call and succeed. -/
def S3M.emit (c : S3Call) : S3M Unit := fun cs => (cs ++ [c], Except.ok ())

/-- Python `try/finally`: run the body, then run the finaliser whatever
the body did; a raising finaliser replaces the outcome, otherwise the
body's outcome stands. -/
def S3M.tryFinally {α : Type} (body : S3M α) (fin : S3M Unit) : S3M α :=
  fun cs =>
    let r := body cs
    let r2 := fin r.1
    (r2.1, match r2.2 with
           | Except.error e => Except.error e
           | Except.ok _ => r.2)

/-- `temp_s3file` from `src/awslambda/deploy.py` (and, identically, from
`src/lambda_deploy.py`): upload the archive, then run the body inside
`try: yield ... finally: client.delete_object(Bucket=bucket, Key=key)`. -/
def temp_s3file {α : Type} (bucket key : String) (body : S3M α) : S3M α :=
  fun cs =>
    let up := S3M.emit (S3Call.uploadFile bucket key) cs
    S3M.tryFinally body (S3M.emit (S3Call.deleteObject bucket key)) up.1

/-- C5: whatever the staged-deployment body does — succeed, or fail at any
point after staging — the delete of the staged object is in the final
call trace: the staged object does not outlive the run. -/
theorem temp_s3file_always_deletes {α : Type} (bucket key : String)
    (body : S3M α) (cs : List S3Call) :
    S3Call.deleteObject bucket key ∈ (temp_s3file bucket key body cs).1 := by
  unfold temp_s3file S3M.tryFinally S3M.emit
  simp

/-- The executor's update/delete loops in `src/awslambda/deploy.py`:
each iteration first builds `lambdas.describe(name)` (a `self[name]`
dictionary lookup, `KeyError` when absent) and only then issues the API
call for that name.  On `KeyError` the run aborts: no further calls. -/
def runPhase (L : Lambdas) (mk : String → ApiCall) :
    List String → List ApiCall × Option String
  | [] => ([], none)
  | n :: rest =>
    match L.getItem n with
    | none => ([], some n)
    | some _ =>
      let r := runPhase L mk rest
      (mk n :: r.1, r.2)

/-- C9: a name in the phase's list that is absent from the snapshot makes
the run abort with a key-lookup failure and its API call is never issued;
when every listed name is in the snapshot, the lookups never fail and
every call is issued. -/
theorem runPhase_key_lookup (L : Lambdas) (mk : String → ApiCall)
    (hinj : Function.Injective mk) (names : List String) :
    (∀ n ∈ names, L.getItem n = none →
      (runPhase L mk names).2.isSome = true
        ∧ mk n ∉ (runPhase L mk names).1)
    ∧ ((∀ n ∈ names, (L.getItem n).isSome = true) →
      runPhase L mk names = (names.map mk, none)) := by
  induction names with
  | nil => exact ⟨fun n hn => absurd hn (List.not_mem_nil n), fun _ => rfl⟩
  | cons m rest ih =>
      constructor
      · intro n hn habs
        rcases List.mem_cons.mp hn with rfl | hn'
        · rw [runPhase, habs]
          exact ⟨rfl, List.not_mem_nil _⟩
        · cases hm : L.getItem m with
          | none =>
              rw [runPhase, hm]
              exact ⟨rfl, List.not_mem_nil _⟩
          | some p =>
              rw [runPhase, hm]
              have hr := (ih.1 n hn' habs)
              refine ⟨hr.1, ?_⟩
              intro hmem
              rcases List.mem_cons.mp hmem with heq | hmem'
              · have : n = m := hinj heq
                rw [this, hm] at habs
                cases habs
              · exact hr.2 hmem'
      · intro hall
        have hm := hall m (List.mem_cons_self m rest)
        cases hgm : L.getItem m with
        | none => rw [hgm] at hm; cases hm
        | some p =>
            rw [runPhase, hgm, List.map_cons]
            rw [ih.2 (fun n hn => hall n (List.mem_cons_of_mem _ hn))]

/-- Witness for C9: deleting `g` when only `f` exists aborts before the
API call; deleting `f` alone issues exactly that call. -/
theorem runPhase_key_lookup_witness :
    ((runPhase [("f", ⟨"h", "r"⟩)] ApiCall.deleteFunction ["g"]).2.isSome = true
      ∧ ApiCall.deleteFunction "g" ∉
          (runPhase [("f", ⟨"h", "r"⟩)] ApiCall.deleteFunction ["g"]).1)
    ∧ runPhase [("f", ⟨"h", "r"⟩)] ApiCall.deleteFunction ["f"] =
        ([ApiCall.deleteFunction "f"], none) := by
  have hinj : Function.Injective ApiCall.deleteFunction := by
    intro a b hab
    cases hab
    rfl
  constructor
  · exact (runPhase_key_lookup [("f", ⟨"h", "r"⟩)] ApiCall.deleteFunction hinj
      ["g"]).1 "g" (List.mem_singleton.mpr rfl) (by decide)
  · exact (runPhase_key_lookup [("f", ⟨"h", "r"⟩)] ApiCall.deleteFunction hinj
      ["f"]).2 (by decide)

/-- A Python callable as the executor sees it: a count of required
positional parameters and, when invoked correctly, the API calls its body
makes. -/
structure PyCallable (α : Type) where
  arity : Nat
  body : α → List ApiCall

/-- `do_create` of `src/lambda_deploy.py`: `def do_create(name, handler,
role)` — three required positional parameters; its body issues one
`create_function` call. -/
def do_create_fn : PyCallable (String × String × String) :=
  ⟨3, fun t => [ApiCall.createFunction t.1 t.2.1 t.2.2]⟩

/-- Python 2 `map(f, xs)`: call `f` with exactly one positional argument
per element of `xs`, left to right.  A call whose argument count differs
from the callee's required parameter count raises `TypeError` and aborts
the run there. -/
def pyMapCall {α : Type} (f : PyCallable α) :
    List α → List ApiCall × Option String
  | [] => ([], none)
  | x :: rest =>
    if f.arity = 1 then
      let r := pyMapCall f rest
      (f.body x ++ r.1, r.2)
    else ([], some "TypeError")

/-- C10: with any nonempty `--create` list, `map(do_create, create)` in
`src/lambda_deploy.py` raises a `TypeError` on the first element — each
3-tuple arrives as a single argument to a 3-parameter function — so no
`create_function` call is ever issued on that path. -/
theorem map_do_create_type_error (create : List (String × String × String))
    (hne : create ≠ []) :
    pyMapCall do_create_fn create = ([], some "TypeError") := by
  cases create with
  | nil => exact absurd rfl hne
  | cons c rest =>
      rw [pyMapCall]
      rw [if_neg (by decide)]

/-- Witness for C10 at a concrete single `--create` option. -/
theorem map_do_create_type_error_witness :
    pyMapCall do_create_fn [("f", "h", "r")] = ([], some "TypeError") :=
  map_do_create_type_error [("f", "h", "r")] (by decide)

end AwsLambda
